/-
Verification of the `ddeint` delay-differential-equation solver
(file `ddeint/ddeint.py`).

The embedding works over exact rationals.  State values live in an
arbitrary `ℚ`-module `V`, which covers both the scalar case (`V = ℚ`)
and the fixed-length-vector case (`V = ℚ × ℚ`, `Fin n → ℚ`, ...)
uniformly, exactly as the source treats scalar and vector samples
uniformly.

Components modelled from the source:
  * `interp1d`   — the sample table of the scipy interpolator as the
                   source uses it: the node array `x`, the value array
                   `y`, and the out-of-range `fill_value`; evaluation
                   (`interp1d.call`) mirrors scipy's linear
                   interpolation with `bounds_error=False`:
                   out-of-range points get `fill_value`, in-range
                   points get the linear interpolant on the bracketing
                   interval found by a left `searchsorted` clipped to
                   `[1, len x - 1]`.
  * `ddeVar`     — the history variable: pre-history function `g`,
                   boundary time `tc`, interpolator `itpr`
                   (`__init__` = `ddeVar.init`, `update`, `__call__` =
                   `ddeVar.call`).
  * `dde`        — the stepper state: history `Y`, solver time `t`,
                   solver state `y`.  The underlying scipy solver is
                   out of scope (a black box), so `dde.integrate`
                   takes it as a parameter `adv`: given the live
                   history and the solver's current `(t, y)` and a
                   target time, `adv` produces the solver's new
                   `(t, y)`.
  * `ddeint`     — the driver: builds the `ddeVar`, seeds the solver,
                   iterates `integrate` over `np.diff tt`, and
                   prepends `g tt[0]` to the collected results.
-/
import Mathlib

set_option maxHeartbeats 1000000

/-- The small epsilon `1.0E-10` used by `ddeVar.__init__` for its second
bootstrap node, as an exact rational. -/
def eps : ℚ := 1 / 10000000000

/-- The interpolator state the source manipulates: node times `x`,
node values `y`, and the constant out-of-range fill value
(`scipy.interpolate.interp1d(..., bounds_error=False, fill_value=...)`). -/
structure interp1d (V : Type) where
  x : List ℚ
  y : List V
  fill_value : V

namespace interp1d

variable {V : Type} [AddCommGroup V] [Module ℚ V]

/-- Evaluation of the interpolator, mirroring scipy's
`interp1d.__call__` for `kind='linear'`, `bounds_error=False`:
a query left of `x[0]` or right of `x[-1]` returns `fill_value`;
otherwise the bracketing interval is located by a left `searchsorted`
clipped to `[1, len x − 1]` and the value is the linear interpolant on
that interval. -/
def call (it : interp1d V) (t : ℚ) : V :=
  if t < it.x.headD 0 ∨ it.x.getLastD 0 < t then it.fill_value
  else
    let n := it.x.length
    let idx := min (max (it.x.countP fun a => decide (a < t)) 1) (n - 1)
    let xlo := it.x.getD (idx - 1) 0
    let xhi := it.x.getD idx 0
    let ylo := it.y.getD (idx - 1) it.fill_value
    let yhi := it.y.getD idx it.fill_value
    ylo + ((t - xlo) / (xhi - xlo)) • (yhi - ylo)

end interp1d

/-- The history variable `ddeVar`: pre-history function `g`, boundary
time `tc`, and the interpolator `itpr`. -/
structure ddeVar (V : Type) where
  g : ℚ → V
  tc : ℚ
  itpr : interp1d V

namespace ddeVar

variable {V : Type}

/-- `ddeVar.__init__(g, tc, Y0)`: the interpolator is seeded with the
three nodes `tc − 1`, `tc − 1e−10`, `tc`, valued at `g` of the two
bootstrap times and at `Y0` (defaulting to `g tc`), with out-of-range
fill value `g tc`. -/
def init (g : ℚ → V) (tc : ℚ) (Y0 : Option V) : ddeVar V :=
  let Y0v := Y0.getD (g tc)
  { g := g
    tc := tc
    itpr := { x := [tc - 1, tc - eps, tc]
              y := [g (tc - 1), g (tc - eps), Y0v]
              fill_value := g tc } }

/-- `ddeVar.update(t, Y)`: appends `t` to the interpolator's node
array, `Y` to its value array (the scalar and vector branches of the
source both do exactly this), and sets the fill value to `Y`.
No monotonicity check is performed by the source. -/
def update (v : ddeVar V) (t : ℚ) (Y : V) : ddeVar V :=
  { v with itpr := { x := v.itpr.x ++ [t]
                     y := v.itpr.y ++ [Y]
                     fill_value := Y } }

variable [AddCommGroup V] [Module ℚ V]

/-- `ddeVar.__call__(t)`: `g t` for `t < tc`, otherwise the
interpolator's value at `t`. -/
def call (v : ddeVar V) (t : ℚ) : V :=
  if t < v.tc then v.g t else v.itpr.call t

/-- `ddeVar.__call__` together with the method's effect on the
receiver: the source's `__call__` body contains no assignment, so the
post-state is the receiver unchanged in both branches. -/
def call' (v : ddeVar V) (t : ℚ) : V × ddeVar V :=
  if t < v.tc then (v.g t, v) else (v.itpr.call t, v)

end ddeVar

/-- The stepper state of class `dde`: the bound history variable `Y`
(`self.Y`) and the underlying solver's current time `t` and state `y`. -/
structure dde (V : Type) where
  Y : ddeVar V
  t : ℚ
  y : V

namespace dde

variable {V : Type} [AddCommGroup V] [Module ℚ V]

/-- `dde.set_initial_value(Y)`: binds the history and initializes the
underlying solver at `(Y.tc, Y(Y.tc))`. -/
def set_initial_value (Y : ddeVar V) : dde V :=
  { Y := Y, t := Y.tc, y := Y.call Y.tc }

/-- `dde.integrate(t)`: the underlying scipy solver (the black-box
parameter `adv`, which may read the live history) advances to the
target and reports its new `(t, y)`; then `self.Y.update(self.t,
self.y)` appends that pair to the history, and `self.y` is returned. -/
def integrate (adv : ddeVar V → ℚ → V → ℚ → ℚ × V) (s : dde V)
    (target : ℚ) : dde V × V :=
  let ty := adv s.Y s.t s.y target
  ({ Y := s.Y.update ty.1 ty.2, t := ty.1, y := ty.2 }, ty.2)

end dde

/-- The driver's comprehension
`[dde_.integrate(dde_.t + dt) for dt in np.diff(tt)]`:
folds `dde.integrate` over the list of grid differences, collecting
the returned states. -/
def runSteps {V : Type} [AddCommGroup V] [Module ℚ V]
    (adv : ddeVar V → ℚ → V → ℚ → ℚ × V) :
    dde V → List ℚ → List V × dde V
  | s, [] => ([], s)
  | s, dt :: ds =>
    let r := s.integrate adv (s.t + dt)
    let rest := runSteps adv r.1 ds
    (r.2 :: rest.1, rest.2)

/-- `np.diff` on a list: consecutive differences. -/
def diff (tt : List ℚ) : List ℚ :=
  List.zipWith (· - ·) tt.tail tt

/-- The body of `ddeint` shared by both return modes: build the
`ddeVar` at `tt[0]`, seed the solver, and run the integration loop
over `np.diff tt`. -/
def ddeintCore {V : Type} [AddCommGroup V] [Module ℚ V]
    (adv : ddeVar V → ℚ → V → ℚ → ℚ × V) (g : ℚ → V) (t0 : ℚ)
    (rest : List ℚ) (Y0 : Option V) : List V × dde V :=
  runSteps adv (dde.set_initial_value (ddeVar.init g t0 Y0))
    (diff (t0 :: rest))

/-- `ddeint(func, g, tt, fargs, Y0)` (default `with_model=False`):
returns `[g tt[0]] ++ results`.  `none` models the index error the
source raises on an empty time grid (`tt[0]`). -/
def ddeint {V : Type} [AddCommGroup V] [Module ℚ V]
    (adv : ddeVar V → ℚ → V → ℚ → ℚ × V) (g : ℚ → V) (tt : List ℚ)
    (Y0 : Option V) : Option (List V) :=
  match tt with
  | [] => none
  | t0 :: rest => some (g t0 :: (ddeintCore adv g t0 rest Y0).1)

/-- `ddeint(..., with_model=True)`: additionally returns the live
history variable `dde_.Y`. -/
def ddeintWithModel {V : Type} [AddCommGroup V] [Module ℚ V]
    (adv : ddeVar V → ℚ → V → ℚ → ℚ × V) (g : ℚ → V) (tt : List ℚ)
    (Y0 : Option V) : Option (List V × ddeVar V) :=
  match tt with
  | [] => none
  | t0 :: rest =>
    let c := ddeintCore adv g t0 rest Y0
    some (g t0 :: c.1, c.2.Y)

/-- A sequence of `update` calls applied in order. -/
def applyUpdates {V : Type} (v : ddeVar V) (l : List (ℚ × V)) : ddeVar V :=
  l.foldl (fun w p => w.update p.1 p.2) v

/-! ## Helper lemmas about the interpolator -/

/-- A query strictly right of the last node returns the fill value. -/
theorem interp1d.call_of_getLast_lt {V : Type} [AddCommGroup V] [Module ℚ V]
    (it : interp1d V) (t : ℚ) (h : it.x.getLastD 0 < t) :
    it.call t = it.fill_value := by
  unfold interp1d.call
  rw [if_pos (Or.inr h)]

/-- Exactness at a node appended past all existing nodes: evaluating at
the new last node returns the new last value (the linear interpolant on
the final interval, taken at its right endpoint). -/
theorem interp1d.call_concat_last {V : Type} [AddCommGroup V] [Module ℚ V]
    (xs : List ℚ) (ys : List V) (fill : V) (tl : ℚ) (yl : V)
    (hne : xs ≠ []) (hlen : ys.length = xs.length)
    (hlt : ∀ a ∈ xs, a < tl) :
    interp1d.call ⟨xs ++ [tl], ys ++ [yl], fill⟩ tl = yl := by
  obtain ⟨a, as, rfl⟩ := List.exists_cons_of_ne_nil hne
  have hguard :
      ¬ (tl < ((a :: as) ++ [tl]).headD 0 ∨ ((a :: as) ++ [tl]).getLastD 0 < tl) := by
    rw [List.getLastD_concat]
    push_neg
    exact ⟨le_of_lt (hlt a (List.mem_cons_self a as)), le_refl tl⟩
  unfold interp1d.call
  rw [if_neg hguard]
  have hcount : ((a :: as) ++ [tl]).countP (fun b => decide (b < tl)) = as.length + 1 := by
    rw [List.countP_append]
    have h1 : (a :: as).countP (fun b => decide (b < tl)) = (a :: as).length :=
      List.countP_eq_length.mpr (fun b hb => decide_eq_true (hlt b hb))
    have h2 : List.countP (fun b => decide (b < tl)) [tl] = 0 := by
      simp [List.countP_cons]
    rw [h1, h2]
    simp
  have hlen2 : ((a :: as) ++ [tl]).length = as.length + 2 := by
    simp
  simp only [hcount, hlen2]
  have hidx : min (max (as.length + 1) 1) (as.length + 2 - 1) = as.length + 1 := by
    omega
  rw [hidx]
  have hxlo_lt : ((a :: as) ++ [tl]).getD (as.length + 1 - 1) 0 < tl := by
    have hb : as.length + 1 - 1 < (a :: as).length := by simp
    rw [List.getD_append _ _ 0 _ hb]
    rw [List.getD_eq_getElem (a :: as) 0 hb]
    exact hlt _ (List.getElem_mem hb)
  have hxhi : ((a :: as) ++ [tl]).getD (as.length + 1) 0 = tl := by
    have hb : (a :: as).length ≤ as.length + 1 := by simp
    rw [List.getD_append_right _ _ 0 _ hb]
    simp
  have hyhi : (ys ++ [yl]).getD (as.length + 1) fill = yl := by
    have hb : ys.length ≤ as.length + 1 := by simp [hlen]
    rw [List.getD_append_right _ _ fill _ hb]
    have h0 : as.length + 1 - ys.length = 0 := by simp [hlen]
    rw [h0]
    rfl
  rw [hxhi, hyhi]
  have hne0 : tl - ((a :: as) ++ [tl]).getD (as.length + 1 - 1) 0 ≠ 0 :=
    sub_ne_zero.mpr (ne_of_gt hxlo_lt)
  rw [div_self hne0, one_smul]
  abel

/-- After `update` at a strictly later time, evaluation at that time
recovers the appended value exactly. -/
theorem ddeVar.call_update_last_aux {V : Type} [AddCommGroup V] [Module ℚ V]
    (v : ddeVar V) (tl : ℚ) (Yl : V)
    (hne : v.itpr.x ≠ []) (hlen : v.itpr.y.length = v.itpr.x.length)
    (hlt : ∀ a ∈ v.itpr.x, a < tl) (htc : v.tc ≤ tl) :
    (v.update tl Yl).call tl = Yl := by
  unfold ddeVar.call ddeVar.update
  rw [if_neg (not_lt.mpr htc)]
  exact interp1d.call_concat_last v.itpr.x v.itpr.y Yl tl Yl hne hlen hlt

/-! ## Claims -/

/-- Claim C1: after appending a sample at a strictly later time `tl`
with value `Yl`, every query at a time `t > tl` returns `Yl` — flat
(constant) extrapolation beyond the trailing edge, because `update`
sets the interpolator's fill value to `Yl` — and the query at `tl`
itself also returns `Yl`, so `at t = at lastAppendedTime`. -/
theorem claim_C1_flat_extrapolation {V : Type} [AddCommGroup V] [Module ℚ V]
    (v : ddeVar V) (tl t : ℚ) (Yl : V)
    (hne : v.itpr.x ≠ []) (hlen : v.itpr.y.length = v.itpr.x.length)
    (hlt : ∀ a ∈ v.itpr.x, a < tl) (htc : v.tc ≤ tl) (ht : tl < t) :
    (v.update tl Yl).call t = Yl ∧ (v.update tl Yl).call tl = Yl := by
  constructor
  · unfold ddeVar.call
    rw [if_neg (show ¬ t < (v.update tl Yl).tc from
      not_lt.mpr (le_of_lt (lt_of_le_of_lt htc ht)))]
    apply interp1d.call_of_getLast_lt
    show (v.itpr.x ++ [tl]).getLastD 0 < t
    rw [List.getLastD_concat]
    exact ht
  · exact ddeVar.call_update_last_aux v tl Yl hne hlen hlt htc

/-- Witness for C1 at a concrete history: query past the appended
sample returns the appended value, as does the query at the appended
time itself. -/
theorem claim_C1_witness :
    ((ddeVar.init (fun _ => (0 : ℚ)) 0 none).update 1 7).call 2 = 7 ∧
      ((ddeVar.init (fun _ => (0 : ℚ)) 0 none).update 1 7).call 1 = 7 :=
  claim_C1_flat_extrapolation (ddeVar.init (fun _ => (0 : ℚ)) 0 none) 1 2 7
    (by simp [ddeVar.init]) (by simp [ddeVar.init])
    (by
      intro a ha
      simp [ddeVar.init] at ha
      rcases ha with rfl | rfl | rfl <;> norm_num [eps])
    (by norm_num [ddeVar.init]) (by norm_num)

/-- Claim C2: for `t < tc` the call returns the pre-history `g t`,
evaluated fresh with no interpolation involved (the result does not
depend on the interpolator state at all); for `t ≥ tc` the
interpolator governs. -/
theorem claim_C2_prehistory_dispatch {V : Type} [AddCommGroup V] [Module ℚ V]
    (g : ℚ → V) (tc t : ℚ) (it it' : interp1d V) :
    (t < tc → ddeVar.call ⟨g, tc, it⟩ t = g t ∧
      ddeVar.call ⟨g, tc, it⟩ t = ddeVar.call ⟨g, tc, it'⟩ t) ∧
    (tc ≤ t → ddeVar.call ⟨g, tc, it⟩ t = it.call t) := by
  constructor
  · intro h
    unfold ddeVar.call
    rw [if_pos h, if_pos h]
    exact ⟨rfl, rfl⟩
  · intro h
    unfold ddeVar.call
    rw [if_neg (not_lt.mpr h)]

/-- Witness for C2: before the boundary the pre-history value is
returned regardless of the interpolator state; at/after the boundary
the interpolator's value is returned. -/
theorem claim_C2_witness :
    (ddeVar.call ⟨fun s => s + 1, 0, ⟨[0], [5], 5⟩⟩ (-2) = (-1 : ℚ) ∧
      ddeVar.call ⟨fun s => s + 1, 0, ⟨[0], [5], 5⟩⟩ (-2) =
        ddeVar.call ⟨fun s => s + 1, 0, ⟨[9], [3], 4⟩⟩ (-2)) ∧
    ddeVar.call ⟨fun s => s + 1, 0, ⟨[0], [(5 : ℚ)], 5⟩⟩ 3 =
      interp1d.call ⟨[0], [(5 : ℚ)], 5⟩ 3 := by
  refine ⟨?_, (claim_C2_prehistory_dispatch (fun s => s + 1) 0 3 ⟨[0], [5], 5⟩
    ⟨[9], [3], 4⟩).2 (by norm_num)⟩
  have h := (claim_C2_prehistory_dispatch (V := ℚ) (fun s => s + 1) 0 (-2)
    ⟨[0], [5], 5⟩ ⟨[9], [3], 4⟩).1 (by norm_num)
  refine ⟨h.1.trans (by norm_num), h.2⟩

/-- Claim C3: construction seeds the interpolator with the two
bootstrap nodes `tc − 1` and `tc − 1e−10`, both strictly before `tc`
and valued at the pre-history there, plus the true first sample at
`tc` valued at the override when supplied (else `g tc`); consequently
the call at `tc` returns the override when supplied, else `g tc`. -/
theorem claim_C3_seeding {V : Type} [AddCommGroup V] [Module ℚ V]
    (g : ℚ → V) (tc : ℚ) (y0 : V) :
    (ddeVar.init g tc (some y0)).itpr.x = [tc - 1, tc - eps, tc] ∧
    tc - 1 < tc ∧ tc - eps < tc ∧
    (ddeVar.init g tc (some y0)).itpr.y = [g (tc - 1), g (tc - eps), y0] ∧
    (ddeVar.init g tc none).itpr.y = [g (tc - 1), g (tc - eps), g tc] ∧
    (ddeVar.init g tc (some y0)).call tc = y0 ∧
    (ddeVar.init g tc none).call tc = g tc := by
  have heps : (0 : ℚ) < eps := by norm_num [eps]
  have hmem : ∀ a ∈ [tc - 1, tc - eps], a < tc := by
    intro a ha
    rcases List.mem_cons.mp ha with rfl | ha
    · linarith
    · rcases List.mem_cons.mp ha with rfl | ha
      · linarith
      · simp at ha
  refine ⟨rfl, by linarith, by linarith, rfl, rfl, ?_, ?_⟩
  · show (if tc < tc then g tc else _) = y0
    rw [if_neg (lt_irrefl tc)]
    exact interp1d.call_concat_last [tc - 1, tc - eps] [g (tc - 1), g (tc - eps)]
      (g tc) tc y0 (by simp) (by simp) hmem
  · show (if tc < tc then g tc else _) = g tc
    rw [if_neg (lt_irrefl tc)]
    exact interp1d.call_concat_last [tc - 1, tc - eps] [g (tc - 1), g (tc - eps)]
      (g tc) tc (g tc) (by simp) (by simp) hmem

/-- Claim C7: every `integrate` call appends the solver's new
`(time, state)` pair to the bound history before returning, returns
that new state, and hence leaves the solver's current time equal to
the time of the most recently appended history sample. -/
theorem claim_C7_advance_invariant {V : Type} [AddCommGroup V] [Module ℚ V]
    (adv : ddeVar V → ℚ → V → ℚ → ℚ × V) (s : dde V) (target : ℚ) :
    ((s.integrate adv target).1.Y).itpr.x =
        s.Y.itpr.x ++ [(s.integrate adv target).1.t] ∧
    ((s.integrate adv target).1.Y).itpr.y =
        s.Y.itpr.y ++ [(s.integrate adv target).1.y] ∧
    (s.integrate adv target).2 = (s.integrate adv target).1.y ∧
    ((s.integrate adv target).1.Y).itpr.x.getLastD 0 =
        (s.integrate adv target).1.t := by
  refine ⟨rfl, rfl, rfl, ?_⟩
  exact List.getLastD_concat _ _ _

/-- Claim C9: `__call__` mutates nothing: the receiver after a call is
the receiver before it, and an immediately repeated call returns the
identical value. -/
theorem claim_C9_call_readonly {V : Type} [AddCommGroup V] [Module ℚ V]
    (v : ddeVar V) (t : ℚ) :
    (v.call' t).2 = v ∧ ((v.call' t).2).call' t = v.call' t := by
  unfold ddeVar.call'
  split <;> exact ⟨rfl, rfl⟩

/-- Claim C5 fails on the code: `update` performs no timestamp check.
Counterexample: the freshly constructed history has last node time `0`;
`update` at the non-increasing time `0` neither fails nor leaves the
state unchanged — the node array grows. -/
theorem claim_C5_counterexample :
    (ddeVar.init (fun _ => (0 : ℚ)) 0 none).itpr.x.getLastD 0 = 0 ∧
    ((ddeVar.init (fun _ => (0 : ℚ)) 0 none).update 0 5).itpr.x ≠
      (ddeVar.init (fun _ => (0 : ℚ)) 0 none).itpr.x := by
  constructor
  · rfl
  · intro heq
    have hl := congrArg List.length heq
    simp [ddeVar.init, ddeVar.update] at hl

/-- Claim C5 amended: `update` never fails and never leaves the state
unchanged; even for a timestamp `t` at or before the last node time it
unconditionally appends `(t, Y)` to the interpolator's arrays and sets
the fill value to `Y` (mutation does occur), leaving `g` and `tc`
untouched. -/
theorem claim_C5_amended {V : Type} (v : ddeVar V) (t : ℚ) (Y : V)
    (h : t ≤ v.itpr.x.getLastD 0) :
    (v.update t Y).itpr.x = v.itpr.x ++ [t] ∧
    (v.update t Y).itpr.y = v.itpr.y ++ [Y] ∧
    (v.update t Y).itpr.fill_value = Y ∧
    (v.update t Y).g = v.g ∧
    (v.update t Y).tc = v.tc ∧
    (v.update t Y).itpr.x ≠ v.itpr.x := by
  refine ⟨rfl, rfl, rfl, rfl, rfl, ?_⟩
  intro heq
  have hl := congrArg List.length heq
  simp [ddeVar.update] at hl

/-- Witness for the amended C5 at a concrete out-of-order append. -/
theorem claim_C5_amended_witness :
    ((ddeVar.init (fun _ => (0 : ℚ)) 0 none).update (-3) 7).itpr.x =
      (ddeVar.init (fun _ => (0 : ℚ)) 0 none).itpr.x ++ [-3] ∧
    ((ddeVar.init (fun _ => (0 : ℚ)) 0 none).update (-3) 7).itpr.y =
      (ddeVar.init (fun _ => (0 : ℚ)) 0 none).itpr.y ++ [7] ∧
    ((ddeVar.init (fun _ => (0 : ℚ)) 0 none).update (-3) 7).itpr.fill_value = 7 ∧
    ((ddeVar.init (fun _ => (0 : ℚ)) 0 none).update (-3) 7).g =
      (ddeVar.init (fun _ => (0 : ℚ)) 0 none).g ∧
    ((ddeVar.init (fun _ => (0 : ℚ)) 0 none).update (-3) 7).tc =
      (ddeVar.init (fun _ => (0 : ℚ)) 0 none).tc ∧
    ((ddeVar.init (fun _ => (0 : ℚ)) 0 none).update (-3) 7).itpr.x ≠
      (ddeVar.init (fun _ => (0 : ℚ)) 0 none).itpr.x :=
  claim_C5_amended _ (-3) 7 (by norm_num [ddeVar.init, List.getLastD])

/-- Claim C6 fails on the code: `ddeint` performs no configuration
check.  A one-element grid is accepted and yields `[g t0]` with no
error, and a non-increasing grid is integrated without any detection. -/
theorem claim_C6_counterexample :
    ddeint (fun _ _ y T => (T, y)) (fun _ => (3 : ℚ)) [0] none = some [3] ∧
    ddeint (fun _ _ y T => (T, y)) (fun t => t) [0, -1, -2] none = some [0, 0, 0] := by
  constructor
  · rfl
  · norm_num [ddeint, ddeintCore, diff, runSteps, dde.set_initial_value,
      dde.integrate, ddeVar.init, ddeVar.update, ddeVar.call, interp1d.call,
      eps, List.countP_cons, List.countP_nil]

/-- Claim C6 amended: `ddeint` validates nothing: on every nonempty
output grid — including one-element and non-increasing grids — it
returns a result rather than surfacing a configuration error; only the
empty grid fails (an index error on `tt[0]`), and that failure is not
a configuration check either. -/
theorem claim_C6_amended {V : Type} [AddCommGroup V] [Module ℚ V]
    (adv : ddeVar V → ℚ → V → ℚ → ℚ × V) (g : ℚ → V) (tt : List ℚ)
    (Y0 : Option V) :
    (tt ≠ [] → (ddeint adv g tt Y0).isSome = true) ∧
    ddeint (V := V) adv g [] Y0 = none := by
  constructor
  · intro h
    cases tt with
    | nil => exact absurd rfl h
    | cons t0 rest => rfl
  · rfl

/-- Witness for the amended C6: a two-element decreasing grid is
accepted without error. -/
theorem claim_C6_amended_witness :
    (ddeint (fun _ _ y T => (T, y)) (fun _ => (0 : ℚ)) [0, -5] none).isSome = true :=
  (claim_C6_amended (fun _ _ y T => (T, y)) (fun _ => (0 : ℚ)) [0, -5] none).1
    (by simp)

/-- Claim C8: immediately after appending a sample `(t1, y1)` at a
strictly later time, the call at `t1` returns exactly `y1` — the
appended sample is recovered exactly, for values in any `ℚ`-module
(scalar and fixed-length-vector cases alike). -/
theorem claim_C8_exact_recovery {V : Type} [AddCommGroup V] [Module ℚ V]
    (v : ddeVar V) (t1 : ℚ) (y1 : V)
    (hne : v.itpr.x ≠ []) (hlen : v.itpr.y.length = v.itpr.x.length)
    (hlt : ∀ a ∈ v.itpr.x, a < t1) (htc : v.tc ≤ t1) :
    (v.update t1 y1).call t1 = y1 :=
  ddeVar.call_update_last_aux v t1 y1 hne hlen hlt htc

/-- Witness for C8 in the scalar case (`V = ℚ`) and in the
fixed-length-vector case (`V = ℚ × ℚ`). -/
theorem claim_C8_witness :
    ((ddeVar.init (fun _ => (0 : ℚ)) 0 none).update 1 7).call 1 = 7 ∧
    ((ddeVar.init (fun _ => ((0 : ℚ), (1 : ℚ))) 0 none).update 1 (3, 4)).call 1 =
      (3, 4) :=
  ⟨claim_C8_exact_recovery _ _ _ (by simp [ddeVar.init]) (by simp [ddeVar.init])
      (by
        intro a ha
        simp [ddeVar.init] at ha
        rcases ha with rfl | rfl | rfl <;> norm_num [eps])
      (by norm_num [ddeVar.init]),
    claim_C8_exact_recovery _ _ _ (by simp [ddeVar.init]) (by simp [ddeVar.init])
      (by
        intro a ha
        simp [ddeVar.init] at ha
        rcases ha with rfl | rfl | rfl <;> norm_num [eps])
      (by norm_num [ddeVar.init])⟩

/-- `g` and `tc` are invariant under any sequence of updates. -/
theorem applyUpdates_g_tc {V : Type} (l : List (ℚ × V)) :
    ∀ v : ddeVar V, (applyUpdates v l).g = v.g ∧ (applyUpdates v l).tc = v.tc := by
  induction l with
  | nil => intro v; exact ⟨rfl, rfl⟩
  | cons p ps ih =>
    intro v
    exact ⟨(ih (v.update p.1 p.2)).1, (ih (v.update p.1 p.2)).2⟩

/-- Claim C10: `update` touches only the interpolator: `g` and `tc`
survive any sequence of appends unchanged, and therefore so does the
value returned for every time `s < tc`. -/
theorem claim_C10_update_frame {V : Type} [AddCommGroup V] [Module ℚ V]
    (v : ddeVar V) (l : List (ℚ × V)) :
    (applyUpdates v l).g = v.g ∧ (applyUpdates v l).tc = v.tc ∧
    ∀ s, s < v.tc → (applyUpdates v l).call s = v.call s := by
  obtain ⟨hg, htc⟩ := applyUpdates_g_tc l v
  refine ⟨hg, htc, ?_⟩
  intro s hs
  unfold ddeVar.call
  rw [htc, hg, if_pos hs, if_pos hs]

/-- Witness for C10: pre-history queries are unaffected by appends. -/
theorem claim_C10_witness :
    (applyUpdates (ddeVar.init (fun _ => (0 : ℚ)) 0 none) [(1, 7), (2, 9)]).call (-5) =
      (ddeVar.init (fun _ => (0 : ℚ)) 0 none).call (-5) :=
  (claim_C10_update_frame _ _).2.2 (-5) (by norm_num [ddeVar.init])

/-- The integration loop produces exactly one result per grid
difference. -/
theorem runSteps_length {V : Type} [AddCommGroup V] [Module ℚ V]
    (adv : ddeVar V → ℚ → V → ℚ → ℚ × V) :
    ∀ (ds : List ℚ) (s : dde V), (runSteps adv s ds).1.length = ds.length := by
  intro ds
  induction ds with
  | nil => intro s; rfl
  | cons d ds ih =>
    intro s
    simp [runSteps, ih]

/-- When the underlying solver always lands on the requested target
time, running the loop on the differences of a grid starting at the
solver's current time appends exactly the remaining grid points to the
history's node array: the k-th advance targets the k-th grid point. -/
theorem runSteps_x_append {V : Type} [AddCommGroup V] [Module ℚ V]
    (adv : ddeVar V → ℚ → V → ℚ → ℚ × V)
    (hadv : ∀ v t y T, (adv v t y T).1 = T) :
    ∀ (rest : List ℚ) (s : dde V) (prev : ℚ), s.t = prev →
      ((runSteps adv s (List.zipWith (· - ·) rest (prev :: rest))).2).Y.itpr.x =
        s.Y.itpr.x ++ rest := by
  intro rest
  induction rest with
  | nil => intro s prev hst; simp [runSteps]
  | cons r rs ih =>
    intro s prev hst
    have hzip : List.zipWith (· - ·) (r :: rs) (prev :: r :: rs) =
        (r - prev) :: List.zipWith (· - ·) rs (r :: rs) := rfl
    rw [hzip]
    have harg : s.t + (r - prev) = r := by rw [hst]; ring
    have hst' : ((s.integrate adv (s.t + (r - prev))).1).t = r := by
      show (adv s.Y s.t s.y (s.t + (r - prev))).1 = r
      rw [hadv, harg]
    have hx : ((s.integrate adv (s.t + (r - prev))).1).Y.itpr.x =
        s.Y.itpr.x ++ [r] := by
      show s.Y.itpr.x ++ [(adv s.Y s.t s.y (s.t + (r - prev))).1] =
        s.Y.itpr.x ++ [r]
      rw [hadv, harg]
    show ((runSteps adv ((s.integrate adv (s.t + (r - prev))).1)
        (List.zipWith (· - ·) rs (r :: rs))).2).Y.itpr.x = s.Y.itpr.x ++ (r :: rs)
    rw [ih ((s.integrate adv (s.t + (r - prev))).1) r hst', hx,
      List.append_assoc]
    rfl

/-- Claim C4: on a strictly increasing grid `t0 :: rest` the driver
returns `some` of `g t0` followed by one advance result per remaining
grid point (so the output has the grid's length), with the first
emitted value `g t0` even when an initial-value override was supplied;
each advance targets the solver's current time plus the grid
difference, so (whenever the solver lands on its target) the appended
sample times are exactly the remaining grid points. -/
theorem claim_C4_driver_output {V : Type} [AddCommGroup V] [Module ℚ V]
    (adv : ddeVar V → ℚ → V → ℚ → ℚ × V) (g : ℚ → V) (t0 : ℚ)
    (rest : List ℚ) (Y0 : Option V)
    (hmono : List.Pairwise (· < ·) (t0 :: rest))
    (hadv : ∀ v t y T, (adv v t y T).1 = T) :
    ddeint adv g (t0 :: rest) Y0 = some (g t0 :: (ddeintCore adv g t0 rest Y0).1) ∧
    (ddeintCore adv g t0 rest Y0).1.length = rest.length ∧
    ddeintWithModel adv g (t0 :: rest) Y0 =
      some (g t0 :: (ddeintCore adv g t0 rest Y0).1,
        (ddeintCore adv g t0 rest Y0).2.Y) ∧
    ((ddeintCore adv g t0 rest Y0).2.Y).itpr.x = [t0 - 1, t0 - eps, t0] ++ rest := by
  refine ⟨rfl, ?_, rfl, ?_⟩
  · show (runSteps adv _ (diff (t0 :: rest))).1.length = rest.length
    rw [runSteps_length]
    simp [diff]
  · exact runSteps_x_append adv hadv rest
      (dde.set_initial_value (ddeVar.init g t0 Y0)) t0 rfl

/-- Witness for C4: a three-point grid with an initial-value override
`5 ≠ g 0 = 0`; the output starts with `g 0 = 0`, has one entry per
grid point, and the history received exactly the grid tail `[1, 2]`. -/
theorem claim_C4_witness :
    ddeint (fun _ _ y T => (T, y)) (fun s => s) [0, 1, 2] (some 5) =
      some [0, 5, 5] ∧
    ((ddeintCore (fun _ _ y T => (T, y)) (fun s => s) 0 [1, 2]
        (some 5)).2.Y).itpr.x = [0 - 1, 0 - eps, 0, 1, 2] := by
  have h := claim_C4_driver_output (fun _ _ y T => (T, y)) (fun s : ℚ => s) 0
    [1, 2] (some 5) (by norm_num) (fun _ _ _ _ => rfl)
  refine ⟨h.1.trans ?_, h.2.2.2.trans (by norm_num)⟩
  norm_num [ddeintCore, diff, runSteps, dde.set_initial_value, dde.integrate,
    ddeVar.init, ddeVar.update, ddeVar.call, interp1d.call, eps,
    List.countP_cons, List.countP_nil]
